import Mathlib

/-!
Verification of the job-description analysis and relevance-ranking core of
the LLMployable repository.

The embedding models text as `List Char`.  The Python `re` idioms used by
the source (`\b`-wrapped literal tokens, the three experience patterns, the
section-header patterns, `\b[a-z]{3,}\b` tokenisation) are embedded as
executable functions whose semantics were derived from the leftmost-match,
greedy-with-backtracking behaviour of the Python `re` module on these
specific patterns.  Python's `sorted` (a stable sort) is embedded as
`List.insertionSort`, which is stable for the same comparison direction:
`orderedInsert` places a new element before an existing one exactly when the
comparison holds, so elements comparing equal keep their original order, and
a stable sort for a total preorder is extensionally unique.
-/

/-- Text is modelled as a list of characters. -/
abbrev Str := List Char

/-- Convenience: a list of string literals as `Str`s. -/
def strs (l : List String) : List Str := l.map String.data

/-- Python `\s` on ASCII text: space, tab, newline, carriage return,
vertical tab, form feed. -/
def isSpaceB (c : Char) : Bool :=
  c == ' ' || c == '\t' || c == '\n' || c == '\r' || c == '\x0b' || c == '\x0c'

/-- Python `\w` on ASCII text: letters, digits, underscore. -/
def isWordChar (c : Char) : Bool := c.isAlphanum || c == '_'

/-- `c` is an ASCII lowercase letter (the `[a-z]` character class). -/
def isLowerAZ (c : Char) : Bool := 'a' ≤ c && c ≤ 'z'

/-- Python `str.lower()` on ASCII text. -/
def lowerStr (t : Str) : Str := t.map Char.toLower

/-- Python substring containment (`k in t`). -/
def isSubstrB (k : Str) : Str → Bool
  | [] => k.isEmpty
  | c :: r => k.isPrefixOf (c :: r) || isSubstrB k r

/-- The word-boundary test of `re`'s `\b`: the two sides of a position
differ in word-char-ness; the edges of the text count as non-word. -/
def wordish : Option Char → Bool
  | none => false
  | some c => isWordChar c

/-- `\b` holds between characters `x` and `y` (edge = `none`). -/
def boundaryOk (x y : Option Char) : Bool := wordish x != wordish y

/-- Does `re.search(r"\b" + re.escape(k) + r"\b", ...)` match at the current
position, given the previous character `prev` and the remaining text `t`? -/
def wbMatchAt (k : Str) (prev : Option Char) (t : Str) : Bool :=
  k.isPrefixOf t && boundaryOk prev k.head? && boundaryOk k.getLast? (t.drop k.length).head?

/-- Scan of all match positions for the `\b`-wrapped literal token `k`. -/
def wbSearchAux (k : Str) (prev : Option Char) : Str → Bool
  | [] => wbMatchAt k prev []
  | c :: r => wbMatchAt k prev (c :: r) || wbSearchAux k (some c) r

/-- `re.search(r"\b" + re.escape(k) + r"\b", t) is not None`
(source: `JobAnalyzer._extract_skills`, the per-keyword pattern). -/
def wbSearch (k t : Str) : Bool := wbSearchAux k none t

/-- The fixed skill taxonomy `JobAnalyzer.tech_keywords`, in source order. -/
def tech_keywords : List (Str × List Str) :=
  [ ("languages".data,
      strs ["python", "java", "javascript", "typescript", "c++", "c#", "go",
            "rust", "ruby", "php", "swift", "kotlin", "scala", "r"]),
    ("frameworks".data,
      strs ["react", "angular", "vue", "django", "flask", "spring", "express",
            "fastapi", "rails", "laravel", ".net", "node.js", "nodejs"]),
    ("databases".data,
      strs ["sql", "mysql", "postgresql", "mongodb", "redis", "elasticsearch",
            "dynamodb", "cassandra", "oracle"]),
    ("cloud".data,
      strs ["aws", "azure", "gcp", "google cloud", "docker", "kubernetes",
            "k8s", "terraform", "ansible"]),
    ("tools".data,
      strs ["git", "jenkins", "ci/cd", "jira", "agile", "scrum", "linux"]) ]

/-- `JobAnalyzer._extract_skills`: for each category keep the taxonomy
tokens whose `\b`-wrapped pattern matches; keep a category only when at
least one token matched (dict insertion order = taxonomy order). -/
def extract_skills (job_desc_lower : Str) : List (Str × List Str) :=
  tech_keywords.filterMap (fun ck =>
    let found := ck.2.filter (fun k => wbSearch k job_desc_lower)
    if found.isEmpty then none else some (ck.1, found))

/-- Literal pattern fragment: consume `k`, return the rest. -/
def matchLit (k t : Str) : Option Str := if k.isPrefixOf t then some (t.drop k.length) else none

/-- Greedy optional single character (`x?` in the source patterns; the
continuation of each such pattern cannot start with `x`, so the greedy
choice is forced). -/
def optChar (c : Char) (t : Str) : Str := if t.head? == some c then t.drop 1 else t

/-- `\s+`: at least one whitespace character, consumed greedily (the
continuation of each use in the source patterns cannot start with
whitespace, so the greedy choice is forced). -/
def spaces1 (t : Str) : Option Str :=
  if (t.takeWhile isSpaceB).isEmpty then none else some (t.dropWhile isSpaceB)

/-- `(?:of\s+)?experience`, including the backtracking fallback that
skips the optional group when its path does not reach `experience`. -/
def expSuffixAt (t : Str) : Option Str :=
  match matchLit "of".data t with
  | some u =>
    match spaces1 u with
    | some v =>
      match matchLit "experience".data v with
      | some w => some w
      | none => matchLit "experience".data t
    | none => matchLit "experience".data t
  | none => matchLit "experience".data t

/-- Pattern `(\d+)\+?\s*years?\s+(?:of\s+)?experience` anchored at the
current position; returns the remaining text after the match. -/
def pat1At (t : Str) : Option Str :=
  if (t.takeWhile Char.isDigit).isEmpty then none else
  match matchLit "year".data ((optChar '+' (t.dropWhile Char.isDigit)).dropWhile isSpaceB) with
  | none => none
  | some t3 =>
    match spaces1 (optChar 's' t3) with
    | none => none
    | some t5 => expSuffixAt t5

/-- Pattern `(\d+)-(\d+)\s*years?\s+(?:of\s+)?experience` anchored at the
current position. -/
def pat2At (t : Str) : Option Str :=
  if (t.takeWhile Char.isDigit).isEmpty then none else
  match t.dropWhile Char.isDigit with
  | '-' :: u =>
    if (u.takeWhile Char.isDigit).isEmpty then none else
    match matchLit "year".data ((u.dropWhile Char.isDigit).dropWhile isSpaceB) with
    | none => none
    | some t3 =>
      match spaces1 (optChar 's' t3) with
      | none => none
      | some t5 => expSuffixAt t5
  | _ => none

/-- `(\d+)` anchored at the current position. -/
def digitsAt (t : Str) : Option Str :=
  if (t.takeWhile Char.isDigit).isEmpty then none else some (t.dropWhile Char.isDigit)

/-- Pattern `minimum\s+(?:of\s+)?(\d+)\s*years?` anchored at the current
position (again with the group-skipping fallback). -/
def pat3At (t : Str) : Option Str :=
  match matchLit "minimum".data t with
  | none => none
  | some u =>
    match spaces1 u with
    | none => none
    | some v =>
      let afterDigits :=
        match matchLit "of".data v with
        | some u2 =>
          match spaces1 u2 with
          | some v2 =>
            match digitsAt v2 with
            | some w => some w
            | none => digitsAt v
          | none => digitsAt v
        | none => digitsAt v
      match afterDigits with
      | none => none
      | some w =>
        match matchLit "year".data (w.dropWhile isSpaceB) with
        | none => none
        | some w3 => some (optChar 's' w3)

/-- `re.search`: try the anchored matcher at every position, left to right;
on the first success return the full matched text (`match.group(0)`). -/
def reSearchAux (patAt : Str → Option Str) : Str → Option Str
  | [] =>
    match patAt [] with
    | some _ => some []
    | none => none
  | c :: r =>
    match patAt (c :: r) with
    | some rem => some ((c :: r).take ((c :: r).length - rem.length))
    | none => reSearchAux patAt r

/-- The sentinel result used throughout `JobAnalyzer`. -/
def notSpec : Str := "Not specified".data

/-- The three experience patterns of `JobAnalyzer._extract_experience`,
in source order. -/
def expPatterns : List (Str → Option Str) := [pat1At, pat2At, pat3At]

/-- `JobAnalyzer._extract_experience`: first matching pattern wins; the
full matched text is returned; otherwise the sentinel. -/
def extract_experience (t : Str) : Str :=
  match expPatterns.findSome? (fun p => reSearchAux p t) with
  | some m => m
  | none => notSpec

/-- The education keyword list of `JobAnalyzer._extract_education`,
in source order. -/
def education_keywords : List Str :=
  strs ["bachelor", "master", "phd", "degree", "bs", "ms", "mba"]

/-- Python `text.split(".")`. -/
def splitOnDot : Str → List Str
  | [] => [[]]
  | c :: r =>
    if c == '.' then [] :: splitOnDot r
    else
      match splitOnDot r with
      | [] => [[c]]
      | s :: ss => (c :: s) :: ss

/-- Python `str.strip()` on ASCII text. -/
def pyStrip (t : Str) : Str := ((t.dropWhile isSpaceB).reverse.dropWhile isSpaceB).reverse

/-- The keyword loop of `JobAnalyzer._extract_education`: for the first
keyword contained in the text, return the first period-separated sentence
containing it, stripped; fall through otherwise. -/
def eduLoop (t : Str) : List Str → Str
  | [] => notSpec
  | k :: ks =>
    if isSubstrB k t then
      match (splitOnDot t).find? (fun s => isSubstrB k s) with
      | some s => pyStrip s
      | none => eduLoop t ks
    else eduLoop t ks

/-- `JobAnalyzer._extract_education`. -/
def extract_education (t : Str) : Str := eduLoop t education_keywords

/-- Case-insensitive literal pattern fragment (the `re.IGNORECASE` flag):
pattern characters are lowercase, text characters are lowered before
comparison. -/
def matchLitCI : Str → Str → Option Str
  | [], t => some t
  | _ :: _, [] => none
  | k :: ks, c :: cs => if c.toLower == k then matchLitCI ks cs else none

/-- The `[:\s]` character class of the section patterns. -/
def isSepChar (c : Char) : Bool := c == ':' || isSpaceB c

/-- Python `text.split("\n")`. -/
def splitOnNl : Str → List Str
  | [] => [[]]
  | c :: r =>
    if c == '\n' then [] :: splitOnNl r
    else
      match splitOnNl r with
      | [] => [[c]]
      | s :: ss => (c :: s) :: ss

/-- The continuation part `(?:\n(?!\n)[^\n]+)*` of the section body
pattern, applied to the lines after the first: keep consuming a newline
plus a whole line while the line is non-empty. -/
def joinContLines : List Str → Str
  | [] => []
  | l :: ls => if l.isEmpty then [] else '\n' :: (l ++ joinContLines ls)

/-- The capture group `([^\n]+(?:\n(?!\n)[^\n]+)*)` evaluated on a suffix
whose first character is not a newline. -/
def groupCapture (u : Str) : Str :=
  match splitOnNl u with
  | [] => []
  | l :: ls => l ++ joinContLines ls

/-- One alternation token followed by `[:\s]*([^\n]+(?:…)*)` anchored at
the current position: after the token, `[:\s]*` greedily eats separator
characters and the group must capture at least one non-newline character,
backtracking into the separator run when the run reaches the end of the
text. -/
def sectionTokenAt (k t : Str) : Option Str :=
  match matchLitCI k t with
  | none => none
  | some rest =>
    if (rest.dropWhile isSepChar).isEmpty then
      match rest.reverse.dropWhile (fun c => c == '\n') with
      | [] => none
      | c :: _ => some (groupCapture (c :: (rest.reverse.takeWhile (fun c => c == '\n')).reverse))
    else some (groupCapture (rest.dropWhile isSepChar))

/-- One section pattern `(?:tok|…)[:\s]*([^\n]+(?:…)*)` anchored at the
current position: the alternation tokens are tried in order. -/
def sectionMatchAt (toks : List Str) (t : Str) : Option Str :=
  toks.findSome? (fun k => sectionTokenAt k t)

/-- Leftmost-position search for a section pattern, returning the captured
group text. -/
def sectionSearch (toks : List Str) : Str → Option Str
  | [] => sectionMatchAt toks []
  | c :: r =>
    match sectionMatchAt toks (c :: r) with
    | some g => some g
    | none => sectionSearch toks r

/-- The section header patterns of `JobAnalyzer._identify_sections`,
in source order. -/
def section_patterns : List (Str × List Str) :=
  [ ("responsibilities".data, strs ["responsibilities", "duties", "role"]),
    ("requirements".data, strs ["requirements", "qualifications"]),
    ("nice_to_have".data, strs ["nice to have", "preferred", "bonus"]) ]

/-- `JobAnalyzer._identify_sections`: per section, a leftmost regex search
over the original-case text; the captured group is stripped. -/
def identify_sections (t : Str) : List (Str × Str) :=
  section_patterns.filterMap (fun p =>
    (sectionSearch p.2 t).map (fun g => (p.1, pyStrip g)))

/-- The stopword set `common_words` of `JobAnalyzer._extract_keywords`. -/
def common_words : List Str :=
  strs ["the", "a", "an", "and", "or", "but", "in", "on", "at", "to", "for",
        "of", "with", "by", "from", "as", "is", "was", "are", "were", "be",
        "been", "being", "have", "has", "had", "do", "does", "did", "will",
        "would", "should", "could", "may", "might", "must", "can"]

/-- Maximal runs of word characters in the text (accumulator holds the
current run reversed). -/
def wordRunsAux : Str → Str → List Str
  | [], acc => if acc.isEmpty then [] else [acc.reverse]
  | c :: r, acc =>
    if isWordChar c then wordRunsAux r (c :: acc)
    else if acc.isEmpty then wordRunsAux r []
    else acc.reverse :: wordRunsAux r []

/-- `re.findall(r"\b[a-z]{3,}\b", t)`: exactly the maximal word-character
runs that consist of three or more lowercase letters (a shorter lowercase
segment of a longer word run fails the `\b` tests). -/
def findWords (t : Str) : List Str :=
  (wordRunsAux t []).filter (fun w => decide (3 ≤ w.length) && w.all isLowerAZ)

/-- One step of the frequency tally `word_freq[word] = word_freq.get(word, 0) + 1`
on an insertion-ordered association list (the shape of a Python dict). -/
def bump : List (Str × Nat) → Str → List (Str × Nat)
  | [], w => [(w, 1)]
  | (k, n) :: rest, w => if k == w then (k, n + 1) :: rest else (k, n) :: bump rest w

/-- The frequency dict of `JobAnalyzer._extract_keywords`: tally every
found word that is not a stopword, keys in first-encountered order. -/
def word_freq (t : Str) : List (Str × Nat) :=
  (findWords t).foldl (fun m w => if common_words.contains w then m else bump m w) []

/-- The sort key comparison of `sorted(word_freq.items(), key=lambda x: x[1],
reverse=True)`: descending count; a stable sort for this total preorder. -/
def freqGe (a b : Str × Nat) : Prop := b.2 ≤ a.2

instance : DecidableRel freqGe := fun a b => Nat.decLe b.2 a.2

instance : IsTotal (Str × Nat) freqGe := ⟨fun a b => Nat.le_total b.2 a.2⟩

instance : IsTrans (Str × Nat) freqGe := ⟨fun _ _ _ h h2 => Nat.le_trans h2 h⟩

/-- The sorted frequency list `sorted_keywords` of
`JobAnalyzer._extract_keywords`. -/
def sorted_keywords (t : Str) : List (Str × Nat) :=
  List.insertionSort freqGe (word_freq t)

/-- `JobAnalyzer._extract_keywords`: the top 20 words by descending
frequency. -/
def extract_keywords (t : Str) : List Str :=
  ((sorted_keywords t).take 20).map Prod.fst

/-- The requirement profile produced by `JobAnalyzer.analyze` (the cache
layer is an external collaborator whose hit is indistinguishable from
recomputation, so it is not part of the pure core). -/
structure RequirementProfile where
  original_description : Str
  skills : List (Str × List Str)
  experience_required : Str
  education_required : Str
  sections : List (Str × Str)
  keywords : List Str
deriving DecidableEq

/-- `JobAnalyzer.analyze`. -/
def analyze (job_description : Str) : RequirementProfile :=
  let job_desc_lower := lowerStr job_description
  { original_description := job_description
    skills := extract_skills job_desc_lower
    experience_required := extract_experience job_desc_lower
    education_required := extract_education job_desc_lower
    sections := identify_sections job_description
    keywords := extract_keywords job_desc_lower }

/-- A portfolio item as produced by `GitHubScraper.scrape_profile`
(the fields used by `select_relevant_projects`; `.get` defaults are
already applied). -/
structure Repo where
  name : Str
  description : Str
  language : Str
  stars : Nat
  topics : List Str
deriving DecidableEq

/-- The flattened skill set: a Python `set` built by unioning the
lowercased tokens of every category, modelled as a duplicate-free list in
insertion order (only membership and member count are ever used). -/
def flatten_skills (job_skills : List (Str × List Str)) : List Str :=
  job_skills.foldl (fun acc p =>
    p.2.foldl (fun a s => if a.contains (lowerStr s) then a else a ++ [lowerStr s]) acc) []

/-- The per-repository score accumulation of
`GitHubScraper.select_relevant_projects` (language +5, each matching topic
+3, each skill token contained in name or description +1). -/
def scoreRepo (skills : List Str) (repo : Repo) : Nat :=
  let repo_name := lowerStr repo.name
  let repo_desc := lowerStr repo.description
  let repo_lang := lowerStr repo.language
  let repo_topics := repo.topics.map lowerStr
  let s1 := if skills.contains repo_lang then 0 + 5 else 0
  let s2 := repo_topics.foldl (fun sc tp => if skills.contains tp then sc + 3 else sc) s1
  skills.foldl (fun sc s => if isSubstrB s repo_name || isSubstrB s repo_desc then sc + 1 else sc) s2

/-- Descending lexicographic comparison on `(score, stars)` keys: the
`key=lambda x: (x[0], x[1].get("stars", 0)), reverse=True` sort order. -/
def scoredGe (a b : Nat × Repo) : Prop :=
  b.1 < a.1 ∨ (b.1 = a.1 ∧ b.2.stars ≤ a.2.stars)

instance : DecidableRel scoredGe := fun a b => by
  unfold scoredGe
  exact inferInstance

instance : IsTotal (Nat × Repo) scoredGe :=
  ⟨by
    intro a b
    unfold scoredGe
    rcases Nat.lt_trichotomy a.1 b.1 with h | h | h
    · exact Or.inr (Or.inl h)
    · rcases Nat.le_total a.2.stars b.2.stars with h2 | h2
      · exact Or.inr (Or.inr ⟨h, h2⟩)
      · exact Or.inl (Or.inr ⟨h.symm, h2⟩)
    · exact Or.inl (Or.inl h)⟩

instance : IsTrans (Nat × Repo) scoredGe :=
  ⟨by
    intro a b c hab hbc
    unfold scoredGe at *
    rcases hab with h1 | ⟨h1, h1s⟩ <;> rcases hbc with h2 | ⟨h2, h2s⟩
    · exact Or.inl (Nat.lt_trans h2 h1)
    · exact Or.inl (h2 ▸ h1)
    · exact Or.inl (h1 ▸ h2)
    · exact Or.inr ⟨h2.trans h1, Nat.le_trans h2s h1s⟩⟩

/-- Descending comparison on star counts: the popularity-only fallback
sort order (`key=lambda x: x.get("stars", 0), reverse=True`). -/
def starsGe (a b : Repo) : Prop := b.stars ≤ a.stars

instance : DecidableRel starsGe := fun a b => Nat.decLe b.stars a.stars

instance : IsTotal Repo starsGe := ⟨fun a b => Nat.le_total b.stars a.stars⟩

instance : IsTrans Repo starsGe := ⟨fun _ _ _ h h2 => Nat.le_trans h2 h⟩

/-- `GitHubScraper.select_relevant_projects`; `limit` is the configured
bound `config.GITHUB_MAX_TOP_PROJECTS` (5 in `config.py`). -/
def select_relevant_projects (repos : List Repo) (job_skills : List (Str × List Str))
    (limit : Nat) : List Repo :=
  if repos.isEmpty then []
  else
    let all_required_skills := flatten_skills job_skills
    if all_required_skills.isEmpty then
      (List.insertionSort starsGe repos).take limit
    else
      let scored_repos := repos.map (fun r => (scoreRepo all_required_skills r, r))
      let sorted_repos := List.insertionSort scoredGe scored_repos
      (sorted_repos.take limit).map Prod.snd

/-- The education extraction the way the specification words it: find the
first keyword (in enumerated order) contained anywhere in the text, split
the text into sentences on the period character, and return the first
trimmed sentence containing that keyword; the sentinel otherwise. -/
def educationSpec (t : Str) : Str :=
  match education_keywords.find? (fun k => isSubstrB k t) with
  | some k =>
    match (splitOnDot t).find? (fun s => isSubstrB k s) with
    | some s => pyStrip s
    | none => notSpec
  | none => notSpec

/-- The experience extraction the way the specification words it: the three
patterns are tried in explicit priority order and the first match's full
matched text is returned verbatim; the sentinel otherwise. -/
def experienceSpec (t : Str) : Str :=
  match reSearchAux pat1At t with
  | some m => m
  | none =>
    match reSearchAux pat2At t with
    | some m => m
    | none =>
      match reSearchAux pat3At t with
      | some m => m
      | none => notSpec

/-- The non-stopword token stream feeding the keyword tally. -/
def goodWords (t : Str) : List Str :=
  (findWords t).filter (fun w => !(common_words.contains w))

/-- Tally value of a key in the frequency association list (0 if absent). -/
def lookupN (m : List (Str × Nat)) (w : Str) : Nat :=
  match m.find? (fun p => p.1 == w) with
  | some p => p.2
  | none => 0

/-- The keys of a frequency association list. -/
def keysOf (m : List (Str × Nat)) : List Str := m.map Prod.fst

/-- Concrete portfolio item: a Python repository, language match only. -/
def repoA : Repo :=
  { name := "alpha".data, description := [], language := "python".data, stars := 0, topics := [] }

/-- Concrete portfolio item: no skill matches at all. -/
def repoB : Repo :=
  { name := "beta".data, description := [], language := [], stars := 0, topics := [] }

/-! ### Generic lemmas -/

theorem foldl_if_add {α : Type} (p : α → Bool) (k : Nat) :
    ∀ (l : List α) (init : Nat),
      l.foldl (fun sc x => if p x then sc + k else sc) init = init + k * l.countP p := by
  intro l
  induction l with
  | nil => intro init; simp
  | cons a l ih =>
    intro init
    by_cases h : p a
    · simp only [List.foldl_cons, h, if_true, ih, List.countP_cons, h]
      ring
    · simp only [List.foldl_cons, h, if_false, ih, List.countP_cons, h]
      simp [h]

/-! ### C2: the relevance score is the stated sum -/

/-- C2.  When the flattened required-skill set is non-empty, the relevance
score of a portfolio item is exactly: +5 if the lowercased language is a
member of the skill set, +3 per lowercased topic that is a member, and +1
per skill token occurring as a substring of the lowercased name or
description (at most one +1 per token, since the skill set holds each token
once). -/
theorem relevance_score_formula (js : List (Str × List Str)) (repo : Repo)
    (_h : flatten_skills js ≠ []) :
    scoreRepo (flatten_skills js) repo =
      (if (flatten_skills js).contains (lowerStr repo.language) then 5 else 0)
      + 3 * (repo.topics.map lowerStr).countP (flatten_skills js).contains
      + (flatten_skills js).countP
          (fun s => isSubstrB s (lowerStr repo.name) || isSubstrB s (lowerStr repo.description)) := by
  unfold scoreRepo
  rw [foldl_if_add, foldl_if_add]
  by_cases hl : (flatten_skills js).contains (lowerStr repo.language) <;>
    simp only [hl, if_true, if_false, Bool.false_eq_true] <;> omega

/-- Witness for C2 at a concrete input. -/
theorem relevance_score_formula_witness :
    flatten_skills [("languages".data, strs ["python"])] ≠ []
    ∧ scoreRepo (flatten_skills [("languages".data, strs ["python"])]) repoA
      = (if (flatten_skills [("languages".data, strs ["python"])]).contains (lowerStr repoA.language) then 5 else 0)
        + 3 * (repoA.topics.map lowerStr).countP
            (flatten_skills [("languages".data, strs ["python"])]).contains
        + (flatten_skills [("languages".data, strs ["python"])]).countP
            (fun s => isSubstrB s (lowerStr repoA.name) || isSubstrB s (lowerStr repoA.description)) :=
  ⟨by decide, relevance_score_formula [("languages".data, strs ["python"])] repoA (by decide)⟩

/-! ### C1: standalone `c++` is never recorded -/

/-- C1 (failing input).  In the job description `"c++ developer"` the
taxonomy token `c++` occurs as a standalone word, yet the `\b`-wrapped
pattern does not match (the boundary after `+` requires a following word
character), so no skill at all is recorded. -/
theorem cpp_standalone_not_recorded :
    "c++ developer".data = "c++".data ++ " developer".data
    ∧ wbSearch "c++".data "c++ developer".data = false
    ∧ (analyze "c++ developer".data).skills = [] :=
  ⟨rfl, by decide, by decide⟩

/-! ### C7: the empty input yields the empty profile -/

/-- C7.  Analysis of the empty string raises no error and produces empty
skills, both sentinels, no sections and no keywords. -/
theorem analyze_empty_profile :
    analyze [] = { original_description := []
                   skills := []
                   experience_required := notSpec
                   education_required := notSpec
                   sections := []
                   keywords := [] } := by decide

/-! ### C3 (counterexample): the returned items carry no score or rank -/

/-- C3 fails as stated: two different skill inputs give the same item a
different relevance score, yet `select_relevant_projects` returns exactly
the same output for both, so the returned items cannot be paired with
their computed score (the source returns the bare repository dictionaries,
dropping the scores). -/
theorem ranked_output_carries_no_score :
    select_relevant_projects [repoA, repoB] [("languages".data, strs ["python"])] 2
      = select_relevant_projects [repoA, repoB] [("languages".data, strs ["python", "alpha"])] 2
    ∧ scoreRepo (flatten_skills [("languages".data, strs ["python"])]) repoA
      ≠ scoreRepo (flatten_skills [("languages".data, strs ["python", "alpha"])]) repoA := by
  constructor
  · decide
  · decide

/-! ### C3 (amended) and C6: ordering of the ranker output -/

/-- C3 as amended.  When the flattened skill set is non-empty the ranker
output is the first `limit` items of a list `L` that is a permutation of
the scored input, is sorted descending by score with ties broken by
descending stars (`scoredGe`), and preserves the input's relative order on
remaining ties (stability); the items are returned bare, without score or
rank attached. -/
theorem rank_order_characterization (repos : List Repo) (js : List (Str × List Str))
    (limit : Nat) (h : flatten_skills js ≠ []) :
    ∃ L : List (Nat × Repo),
      select_relevant_projects repos js limit = (L.take limit).map Prod.snd
      ∧ L.Perm (repos.map (fun r => (scoreRepo (flatten_skills js) r, r)))
      ∧ L.Pairwise scoredGe
      ∧ ∀ x y : Nat × Repo,
          [x, y].Sublist (repos.map (fun r => (scoreRepo (flatten_skills js) r, r))) →
          scoredGe x y → [x, y].Sublist L := by
  refine ⟨List.insertionSort scoredGe (repos.map (fun r => (scoreRepo (flatten_skills js) r, r))),
    ?_, List.perm_insertionSort _ _, List.sorted_insertionSort _ _,
    fun x y hs hxy => List.pair_sublist_insertionSort hxy hs⟩
  unfold select_relevant_projects
  cases repos with
  | nil => simp
  | cons a l =>
    have hne : (flatten_skills js).isEmpty = false := by
      cases hfs : flatten_skills js with
      | nil => exact absurd hfs h
      | cons x xs => rfl
    simp [hne]

/-- Witness for C3 (amended) at a concrete input. -/
theorem rank_order_characterization_witness :
    flatten_skills [("languages".data, strs ["python"])] ≠ []
    ∧ ∃ L : List (Nat × Repo),
        select_relevant_projects [repoA, repoB] [("languages".data, strs ["python"])] 2
          = (L.take 2).map Prod.snd
        ∧ L.Perm ([repoA, repoB].map
            (fun r => (scoreRepo (flatten_skills [("languages".data, strs ["python"])]) r, r)))
        ∧ L.Pairwise scoredGe
        ∧ ∀ x y : Nat × Repo,
            [x, y].Sublist ([repoA, repoB].map
              (fun r => (scoreRepo (flatten_skills [("languages".data, strs ["python"])]) r, r))) →
            scoredGe x y → [x, y].Sublist L :=
  ⟨by decide, rank_order_characterization [repoA, repoB] [("languages".data, strs ["python"])] 2
    (by decide)⟩

/-- C6.  The ranker is total: the empty item list gives the empty result,
and an empty flattened skill set falls back to a popularity-only ordering:
the first `limit` items of a stable descending sort by stars. -/
theorem rank_totality (repos : List Repo) (js : List (Str × List Str)) (limit : Nat)
    (_hpos : 0 < limit) :
    select_relevant_projects [] js limit = []
    ∧ (flatten_skills js = [] →
        ∃ L : List Repo,
          select_relevant_projects repos js limit = L.take limit
          ∧ L.Perm repos
          ∧ L.Pairwise starsGe
          ∧ ∀ x y : Repo, [x, y].Sublist repos → starsGe x y → [x, y].Sublist L) := by
  constructor
  · rfl
  · intro hfs
    refine ⟨List.insertionSort starsGe repos, ?_, List.perm_insertionSort _ _,
      List.sorted_insertionSort _ _, fun x y hs hxy => List.pair_sublist_insertionSort hxy hs⟩
    unfold select_relevant_projects
    cases repos with
    | nil => simp
    | cons a l => simp [hfs]

/-- Witness for C6 at a concrete input. -/
theorem rank_totality_witness :
    (0 : Nat) < 2
    ∧ select_relevant_projects [] [("languages".data, strs ["python"])] 2 = []
    ∧ (flatten_skills ([] : List (Str × List Str)) = [] →
        ∃ L : List Repo,
          select_relevant_projects [repoA, repoB] [] 2 = L.take 2
          ∧ L.Perm [repoA, repoB]
          ∧ L.Pairwise starsGe
          ∧ ∀ x y : Repo, [x, y].Sublist [repoA, repoB] → starsGe x y → [x, y].Sublist L) :=
  ⟨by decide, (rank_totality [repoA, repoB] [("languages".data, strs ["python"])] 2 (by decide)).1,
    (rank_totality [repoA, repoB] [] 2 (by decide)).2⟩

/-! ### C5: experience extraction -/

theorem reSearchAux_returns_span (patAt : Str → Option Str) :
    ∀ t m : Str, reSearchAux patAt t = some m → ∃ a b : Str, t = a ++ m ++ b := by
  intro t
  induction t with
  | nil =>
    intro m h
    unfold reSearchAux at h
    cases hp : patAt [] with
    | none => rw [hp] at h; exact absurd h (by simp)
    | some r =>
      rw [hp] at h
      refine ⟨[], [], ?_⟩
      simp only [Option.some.injEq] at h
      simp [← h]
  | cons c r ih =>
    intro m h
    unfold reSearchAux at h
    cases hp : patAt (c :: r) with
    | some rem =>
      rw [hp] at h
      simp only [Option.some.injEq] at h
      refine ⟨[], (c :: r).drop ((c :: r).length - rem.length), ?_⟩
      simp [← h, List.take_append_drop]
    | none =>
      rw [hp] at h
      obtain ⟨a, b, hab⟩ := ih m h
      exact ⟨c :: a, b, by simp [hab]⟩

/-- C5.  The experience summary is the full matched text of the first of
the three patterns, tried in priority order, and the sentinel otherwise;
a non-sentinel result is returned verbatim: it is a contiguous substring
of the input text. -/
theorem experience_priority_and_verbatim (t : Str) :
    extract_experience t = experienceSpec t
    ∧ (extract_experience t ≠ notSpec →
        ∃ a b : Str, t = a ++ extract_experience t ++ b) := by
  constructor
  · unfold extract_experience experienceSpec expPatterns
    simp only [List.findSome?_cons]
    cases reSearchAux pat1At t with
    | some m => rfl
    | none =>
      cases reSearchAux pat2At t with
      | some m => rfl
      | none =>
        cases reSearchAux pat3At t with
        | some m => rfl
        | none => rfl
  · intro hne
    unfold extract_experience expPatterns at *
    simp only [List.findSome?_cons] at *
    cases h1 : reSearchAux pat1At t with
    | some m => simp only [h1]; exact reSearchAux_returns_span pat1At t m h1
    | none =>
      simp only [h1] at hne ⊢
      cases h2 : reSearchAux pat2At t with
      | some m => simp only [h2]; exact reSearchAux_returns_span pat2At t m h2
      | none =>
        simp only [h2] at hne ⊢
        cases h3 : reSearchAux pat3At t with
        | some m => simp only [h3]; exact reSearchAux_returns_span pat3At t m h3
        | none => simp only [h3] at hne; exact absurd rfl hne

/-! ### C4 and C9: education extraction -/

theorem splitOnDot_ne_nil : ∀ t : Str, splitOnDot t ≠ [] := by
  intro t
  cases t with
  | nil => simp [splitOnDot]
  | cons c r =>
    by_cases hc : c == '.'
    · simp [splitOnDot, hc]
    · simp only [splitOnDot, hc, Bool.false_eq_true, if_false]
      cases splitOnDot r <;> simp

theorem isSubstrB_of_isPrefixOf {k t : Str} (h : k.isPrefixOf t = true) :
    isSubstrB k t = true := by
  cases t with
  | nil =>
    cases k with
    | nil => rfl
    | cons a as => simp at h
  | cons c r =>
    unfold isSubstrB
    rw [h]
    rfl

theorem isPrefixOf_head_splitOnDot : ∀ (k : Str), '.' ∉ k → ∀ t : Str, k.isPrefixOf t = true →
    ∃ s ss, splitOnDot t = s :: ss ∧ k.isPrefixOf s = true := by
  intro k
  induction k with
  | nil =>
    intro _ t _
    cases hs : splitOnDot t with
    | nil => exact absurd hs (splitOnDot_ne_nil t)
    | cons s ss => exact ⟨s, ss, rfl, by simp⟩
  | cons a as ih =>
    intro hdot t hpre
    cases t with
    | nil => simp at hpre
    | cons c r =>
      rw [List.isPrefixOf_cons₂] at hpre
      have hac : a = c := by
        have := (Bool.and_eq_true _ _).mp hpre
        exact beq_iff_eq.mp this.1
      have hpre' : as.isPrefixOf r = true := ((Bool.and_eq_true _ _).mp hpre).2
      have hdot' : '.' ∉ as := fun hmem => hdot (List.mem_cons_of_mem a hmem)
      have hcne : ¬(c == '.') = true := by
        intro hb
        exact hdot (by rw [hac, beq_iff_eq.mp hb]; exact List.mem_cons_self _ _)
      obtain ⟨s, ss, hsp, hps⟩ := ih hdot' r hpre'
      refine ⟨c :: s, ss, ?_, ?_⟩
      · unfold splitOnDot
        rw [if_neg hcne, hsp]
      · rw [List.isPrefixOf_cons₂, hac]
        simp [hps]

theorem isSubstrB_splitOnDot {k : Str} (hne : k ≠ []) (hdot : '.' ∉ k) :
    ∀ t : Str, isSubstrB k t = true → ∃ s, s ∈ splitOnDot t ∧ isSubstrB k s = true := by
  intro t
  induction t with
  | nil =>
    intro h
    unfold isSubstrB at h
    exact absurd (List.isEmpty_iff.mp h) hne
  | cons c r ih =>
    intro h
    unfold isSubstrB at h
    rcases (Bool.or_eq_true _ _).mp h with hpre | hsub
    · obtain ⟨s, ss, hsp, hps⟩ := isPrefixOf_head_splitOnDot k hdot (c :: r) hpre
      exact ⟨s, by rw [hsp]; exact List.mem_cons_self _ _, isSubstrB_of_isPrefixOf hps⟩
    · obtain ⟨s, hmem, hks⟩ := ih hsub
      by_cases hc : c == '.'
      · refine ⟨s, ?_, hks⟩
        simp only [splitOnDot, hc, if_true]
        exact List.mem_cons_of_mem _ hmem
      · cases hr : splitOnDot r with
        | nil => exact absurd hr (splitOnDot_ne_nil r)
        | cons s0 ss0 =>
          rw [hr] at hmem
          have hsd : splitOnDot (c :: r) = (c :: s0) :: ss0 := by
            unfold splitOnDot
            rw [if_neg hc, hr]
          rcases List.mem_cons.mp hmem with heq | htail
          · subst heq
            refine ⟨c :: s, ?_, ?_⟩
            · rw [hsd]
              exact List.mem_cons_self _ _
            · unfold isSubstrB
              rw [hks]
              simp
          · refine ⟨s, ?_, hks⟩
            rw [hsd]
            exact List.mem_cons_of_mem _ htail

theorem eduLoop_eq_find : ∀ (ks : List Str), (∀ k ∈ ks, k ≠ [] ∧ '.' ∉ k) → ∀ t : Str,
    eduLoop t ks =
      match ks.find? (fun k => isSubstrB k t) with
      | some k =>
        match (splitOnDot t).find? (fun s => isSubstrB k s) with
        | some s => pyStrip s
        | none => notSpec
      | none => notSpec := by
  intro ks
  induction ks with
  | nil => intro _ t; rfl
  | cons k ks ih =>
    intro hprops t
    have hk := hprops k (List.mem_cons_self _ _)
    by_cases hkt : isSubstrB k t = true
    · rw [@List.find?_cons_of_pos _ (fun k' => isSubstrB k' t) k ks hkt]
      obtain ⟨s, hmem, hs⟩ := isSubstrB_splitOnDot hk.1 hk.2 t hkt
      have hsome : ((splitOnDot t).find? (fun s => isSubstrB k s)).isSome :=
        List.find?_isSome.mpr ⟨s, hmem, hs⟩
      cases hfind : (splitOnDot t).find? (fun s => isSubstrB k s) with
      | none => rw [hfind] at hsome; simp at hsome
      | some s' =>
        unfold eduLoop
        rw [if_pos hkt]
        simp only [hfind]
    · rw [@List.find?_cons_of_neg _ (fun k' => isSubstrB k' t) k ks (by simpa using hkt)]
      unfold eduLoop
      rw [if_neg hkt]
      exact ih (fun k' hk' => hprops k' (List.mem_cons_of_mem _ hk')) t

/-- C4.  Education extraction scans the seven keywords in their enumerated
order; for the first keyword contained anywhere in the text the text is
split on periods and the first trimmed sentence containing that keyword is
returned; otherwise the sentinel. -/
theorem education_first_keyword_first_sentence (t : Str) :
    extract_education t = educationSpec t := by
  have h := eduLoop_eq_find education_keywords (by decide) t
  unfold extract_education educationSpec
  exact h

/-- Witness for C5 at a concrete input. -/
theorem experience_priority_and_verbatim_witness :
    extract_experience "5+ years of experience".data = experienceSpec "5+ years of experience".data
    ∧ extract_experience "5+ years of experience".data ≠ notSpec
    ∧ ∃ a b : Str, "5+ years of experience".data
        = a ++ extract_experience "5+ years of experience".data ++ b :=
  ⟨(experience_priority_and_verbatim _).1, by decide,
   (experience_priority_and_verbatim _).2 (by decide)⟩

theorem mem_of_mem_splitOnDot : ∀ (t s : Str), s ∈ splitOnDot t → ∀ c ∈ s, c ∈ t := by
  intro t
  induction t with
  | nil =>
    intro s hs c hc
    simp only [splitOnDot, List.mem_singleton] at hs
    subst hs
    simp at hc
  | cons d r ih =>
    intro s hs c hc
    by_cases hd : (d == '.') = true
    · simp only [splitOnDot, hd, if_true] at hs
      rcases List.mem_cons.mp hs with h1 | h2
      · subst h1; simp at hc
      · exact List.mem_cons_of_mem _ (ih s h2 c hc)
    · cases hr : splitOnDot r with
      | nil => exact absurd hr (splitOnDot_ne_nil r)
      | cons s0 ss0 =>
        have hsd : splitOnDot (d :: r) = (d :: s0) :: ss0 := by
          unfold splitOnDot
          rw [if_neg hd, hr]
        rw [hsd] at hs
        rcases List.mem_cons.mp hs with h1 | h2
        · subst h1
          rcases List.mem_cons.mp hc with hcd | hcs
          · subst hcd; exact List.mem_cons_self _ _
          · exact List.mem_cons_of_mem _
              (ih s0 (by rw [hr]; exact List.mem_cons_self _ _) c hcs)
        · exact List.mem_cons_of_mem _
            (ih s (by rw [hr]; exact List.mem_cons_of_mem _ h2) c hc)

theorem mem_pyStrip {s : Str} {c : Char} (h : c ∈ pyStrip s) : c ∈ s := by
  unfold pyStrip at h
  have h1 := List.mem_reverse.mp h
  have h2 := (List.dropWhile_sublist _).subset h1
  have h3 := List.mem_reverse.mp h2
  exact (List.dropWhile_sublist _).subset h3

theorem toNat_ofNat_valid {m : Nat} (h : m.isValidChar) : (Char.ofNat m).toNat = m := by
  unfold Char.ofNat
  rw [dif_pos h]
  rfl

theorem toLower_ne_N (c : Char) : c.toLower ≠ 'N' := by
  intro h
  simp only [Char.toLower] at h
  by_cases hc : c.toNat ≥ 65 ∧ c.toNat ≤ 90
  · rw [if_pos hc] at h
    have hv : (c.toNat + 32).isValidChar := Or.inl (by omega)
    have h2 := congrArg Char.toNat h
    rw [toNat_ofNat_valid hv] at h2
    have h3 : ('N' : Char).toNat = 78 := rfl
    omega
  · rw [if_neg hc] at h
    rw [h] at hc
    exact hc ⟨by decide, by decide⟩

theorem eduLoop_finds : ∀ (ks : List Str), (∀ k ∈ ks, k ≠ [] ∧ '.' ∉ k) → ∀ t : Str,
    (∃ k ∈ ks, isSubstrB k t = true) →
    ∃ s, s ∈ splitOnDot t ∧ eduLoop t ks = pyStrip s ∧ ∃ k ∈ ks, isSubstrB k s = true := by
  intro ks
  induction ks with
  | nil =>
    intro _ t h
    obtain ⟨k, hk, _⟩ := h
    simp at hk
  | cons k ks ih =>
    intro hprops t hex
    have hk := hprops k (List.mem_cons_self _ _)
    by_cases hkt : isSubstrB k t = true
    · obtain ⟨s, hmem, hs⟩ := isSubstrB_splitOnDot hk.1 hk.2 t hkt
      have hsome : ((splitOnDot t).find? (fun s => isSubstrB k s)).isSome :=
        List.find?_isSome.mpr ⟨s, hmem, hs⟩
      cases hfind : (splitOnDot t).find? (fun s => isSubstrB k s) with
      | none => rw [hfind] at hsome; simp at hsome
      | some s' =>
        refine ⟨s', List.mem_of_find?_eq_some hfind, ?_, k, List.mem_cons_self _ _,
          List.find?_some hfind⟩
        unfold eduLoop
        rw [if_pos hkt, hfind]
    · obtain ⟨k0, hk0m, hk0⟩ := hex
      have hk0ks : k0 ∈ ks := by
        rcases List.mem_cons.mp hk0m with h1 | h2
        · subst h1; exact absurd hk0 hkt
        · exact h2
      obtain ⟨s, hmem, hloop, k1, hk1m, hk1⟩ :=
        ih (fun k' hk' => hprops k' (List.mem_cons_of_mem _ hk')) t ⟨k0, hk0ks, hk0⟩
      refine ⟨s, hmem, ?_, k1, List.mem_cons_of_mem _ hk1m, hk1⟩
      unfold eduLoop
      rw [if_neg hkt]
      exact hloop

/-- C9.  Education keyword detection is substring based, not whole word:
whenever one of the seven keywords occurs anywhere in the lowercased text
(also inside a longer word), the analysis returns a stripped
period-separated sentence containing a keyword, and that result is never
the sentinel. -/
theorem education_substring_sensitivity (t : Str)
    (h : ∃ k ∈ education_keywords, isSubstrB k (lowerStr t) = true) :
    (analyze t).education_required ≠ notSpec
    ∧ ∃ s, s ∈ splitOnDot (lowerStr t)
        ∧ (analyze t).education_required = pyStrip s
        ∧ ∃ k ∈ education_keywords, isSubstrB k s = true := by
  obtain ⟨s, hmem, hloop, hk⟩ := eduLoop_finds education_keywords (by decide) (lowerStr t) h
  have heq : (analyze t).education_required = pyStrip s := hloop
  refine ⟨?_, s, hmem, heq, hk⟩
  intro hcontra
  rw [heq] at hcontra
  have hN : 'N' ∈ pyStrip s := by rw [hcontra]; decide
  have hN2 : 'N' ∈ lowerStr t := mem_of_mem_splitOnDot (lowerStr t) s hmem 'N' (mem_pyStrip hN)
  obtain ⟨c, _, hc⟩ := List.mem_map.mp hN2
  exact toLower_ne_N c hc

/-- Witness for C9 at a concrete input (the keyword `bs` inside `jobs`). -/
theorem education_substring_sensitivity_witness :
    (∃ k ∈ education_keywords, isSubstrB k (lowerStr "Great jobs here".data) = true)
    ∧ (analyze "Great jobs here".data).education_required ≠ notSpec
    ∧ ∃ s, s ∈ splitOnDot (lowerStr "Great jobs here".data)
        ∧ (analyze "Great jobs here".data).education_required = pyStrip s
        ∧ ∃ k ∈ education_keywords, isSubstrB k s = true :=
  ⟨by decide, education_substring_sensitivity "Great jobs here".data (by decide)⟩

/-! ### C10: section identification -/

theorem matchLitCI_lower : ∀ (w b : Str), matchLitCI (lowerStr w) (w ++ b) = some b := by
  intro w
  induction w with
  | nil => intro b; rfl
  | cons c cs ih =>
    intro b
    simp only [lowerStr, List.map_cons, List.cons_append]
    unfold matchLitCI
    rw [if_pos (by simp)]
    have := ih b
    simp only [lowerStr] at this
    exact this

theorem findSome?_isSome_of_mem {α β : Type} {f : α → Option β} {l : List α} {a : α} {v : β}
    (ha : a ∈ l) (hf : f a = some v) : ∃ g, l.findSome? f = some g := by
  induction l with
  | nil => simp at ha
  | cons x xs ih =>
    cases hx : f x with
    | some g => exact ⟨g, by rw [List.findSome?_cons, hx]⟩
    | none =>
      rcases List.mem_cons.mp ha with h1 | h2
      · subst h1; rw [hx] at hf; exact absurd hf (by simp)
      · obtain ⟨g, hg⟩ := ih h2
        exact ⟨g, by rw [List.findSome?_cons, hx]; exact hg⟩

theorem dropWhile_ne_nil_of_exists {α : Type} {p : α → Bool} {l : List α}
    (h : ∃ c ∈ l, p c = false) : l.dropWhile p ≠ [] := by
  induction l with
  | nil => obtain ⟨c, hc, _⟩ := h; simp at hc
  | cons x xs ih =>
    by_cases hx : p x = true
    · rw [List.dropWhile_cons_of_pos hx]
      apply ih
      obtain ⟨c, hc, hcf⟩ := h
      rcases List.mem_cons.mp hc with h1 | h2
      · subst h1; rw [hx] at hcf; exact absurd hcf (by simp)
      · exact ⟨c, h2, hcf⟩
    · rw [List.dropWhile_cons_of_neg hx]
      simp

theorem sectionTokenAt_isSome {k t rest : Str} (hm : matchLitCI k t = some rest)
    (hb : ∃ c ∈ rest, c ≠ '\n') : ∃ v, sectionTokenAt k t = some v := by
  unfold sectionTokenAt
  simp only [hm]
  by_cases he : (rest.dropWhile isSepChar).isEmpty = true
  · rw [if_pos he]
    have hd : rest.reverse.dropWhile (fun c => c == '\n') ≠ [] := by
      apply dropWhile_ne_nil_of_exists
      obtain ⟨c, hc, hcn⟩ := hb
      exact ⟨c, List.mem_reverse.mpr hc, by simpa using hcn⟩
    cases hdw : rest.reverse.dropWhile (fun c => c == '\n') with
    | nil => exact absurd hdw hd
    | cons c cs => exact ⟨_, rfl⟩
  · rw [if_neg he]
    exact ⟨_, rfl⟩

theorem sectionSearch_cons (toks : List Str) (c : Char) (r : Str) :
    sectionSearch toks (c :: r) =
      match sectionMatchAt toks (c :: r) with
      | some g => some g
      | none => sectionSearch toks r := rfl

theorem sectionSearch_isSome (toks : List Str) :
    ∀ (a u : Str), (∃ g, sectionMatchAt toks u = some g) →
    ∃ g', sectionSearch toks (a ++ u) = some g' := by
  intro a
  induction a with
  | nil =>
    intro u hg
    obtain ⟨g, hgm⟩ := hg
    rw [List.nil_append]
    cases u with
    | nil => exact ⟨g, hgm⟩
    | cons c r => exact ⟨g, by rw [sectionSearch_cons, hgm]⟩
  | cons c a' ih =>
    intro u hg
    obtain ⟨g', hg'⟩ := ih u hg
    simp only [List.cons_append]
    cases hm : sectionMatchAt toks (c :: (a' ++ u)) with
    | some g2 => exact ⟨g2, by rw [sectionSearch_cons, hm]⟩
    | none => exact ⟨g', by rw [sectionSearch_cons, hm]; exact hg'⟩

/-- C10.  Section identification needs neither a word boundary around the
header token nor an actual separator: any occurrence of a header token —
also as a substring of a longer word — followed by at least one
non-newline character produces an entry for that section. -/
theorem section_token_substring_capture (t a w b name : Str) (toks : List Str)
    (hp : (name, toks) ∈ section_patterns) (hk : lowerStr w ∈ toks)
    (ht : t = a ++ w ++ b) (hb : ∃ c ∈ b, c ≠ '\n') :
    ∃ v, (name, v) ∈ identify_sections t := by
  have hm : matchLitCI (lowerStr w) (w ++ b) = some b := matchLitCI_lower w b
  obtain ⟨g, htok⟩ := sectionTokenAt_isSome hm hb
  have hmat : ∃ g0, sectionMatchAt toks (w ++ b) = some g0 :=
    findSome?_isSome_of_mem hk htok
  obtain ⟨g', hsearch⟩ := sectionSearch_isSome toks a (w ++ b) hmat
  rw [List.append_assoc] at ht
  subst ht
  refine ⟨pyStrip g', ?_⟩
  unfold identify_sections
  apply List.mem_filterMap.mpr
  exact ⟨(name, toks), hp, by rw [hsearch]; rfl⟩

/-- Witness for C10 at a concrete input: `role` inside the word `roles`,
with no colon separator, still produces a responsibilities section. -/
theorem section_token_substring_capture_witness :
    ((("responsibilities".data : Str), (strs ["responsibilities", "duties", "role"]))
        ∈ section_patterns)
    ∧ ("my roles are varied".data : Str) = "my ".data ++ "role".data ++ "s are varied".data
    ∧ (∃ c ∈ ("s are varied".data : Str), c ≠ '\n')
    ∧ ∃ v, ("responsibilities".data, v) ∈ identify_sections "my roles are varied".data :=
  ⟨by decide, by decide, by decide,
    section_token_substring_capture "my roles are varied".data "my ".data "role".data
      "s are varied".data "responsibilities".data (strs ["responsibilities", "duties", "role"])
      (by decide) (by decide) (by decide) (by decide)⟩

/-! ### C8: keyword extraction -/

theorem foldl_skip_filter {α β : Type} (c : α → Bool) (f : β → α → β) :
    ∀ (l : List α) (init : β),
      l.foldl (fun m w => if c w then m else f m w) init
        = (l.filter (fun w => !(c w))).foldl f init := by
  intro l
  induction l with
  | nil => intro init; rfl
  | cons a l ih =>
    intro init
    by_cases ha : c a = true
    · simp only [List.foldl_cons, ha, if_true, List.filter_cons, Bool.not_true,
        Bool.false_eq_true, if_false]
      exact ih init
    · have ha' : c a = false := by simpa using ha
      simp only [List.foldl_cons, ha', Bool.false_eq_true, if_false, List.filter_cons,
        Bool.not_false, if_true]
      exact ih (f init a)

theorem lookupN_bump_self : ∀ (m : List (Str × Nat)) (w : Str),
    lookupN (bump m w) w = lookupN m w + 1 := by
  intro m w
  induction m with
  | nil => simp [bump, lookupN, List.find?]
  | cons p rest ih =>
    obtain ⟨k, n⟩ := p
    by_cases hk : (k == w) = true
    · simp [bump, lookupN, List.find?, hk]
    · have hk' : (k == w) = false := by simpa using hk
      simp only [bump, hk', Bool.false_eq_true, if_false]
      simp only [lookupN, List.find?, hk'] at ih ⊢
      exact ih

theorem beq_symm_false {v w : Str} (h : (v == w) = false) : (w == v) = false := by
  rw [beq_eq_false_iff_ne] at h ⊢
  exact fun he => h he.symm

theorem lookupN_bump_other {v w : Str} (hne : (v == w) = false) :
    ∀ (m : List (Str × Nat)), lookupN (bump m w) v = lookupN m v := by
  intro m
  induction m with
  | nil =>
    simp only [bump, lookupN, List.find?]
    simp [beq_symm_false hne]
  | cons p rest ih =>
    obtain ⟨k, n⟩ := p
    by_cases hk : (k == w) = true
    · simp only [bump, hk, if_true]
      simp only [lookupN, List.find?]
      have hkv : (k == v) = false := by
        rw [beq_eq_false_iff_ne] at hne ⊢
        have hkw : k = w := beq_iff_eq.mp hk
        subst hkw
        exact fun he => hne he.symm
      simp [hkv]
    · have hk' : (k == w) = false := by simpa using hk
      simp only [bump, hk', Bool.false_eq_true, if_false]
      simp only [lookupN, List.find?] at ih ⊢
      cases hkv : (k == v) with
      | true => rfl
      | false => exact ih

theorem lookupN_foldl_bump : ∀ (ws : List Str) (m : List (Str × Nat)) (w : Str),
    lookupN (ws.foldl bump m) w = lookupN m w + ws.count w := by
  intro ws
  induction ws with
  | nil => intro m w; simp [List.count_nil]
  | cons x xs ih =>
    intro m w
    rw [List.foldl_cons, ih]
    by_cases hx : (x == w) = true
    · have hxw : x = w := beq_iff_eq.mp hx
      subst hxw
      rw [lookupN_bump_self]
      simp [List.count_cons]
      omega
    · have hx' : (x == w) = false := by simpa using hx
      rw [lookupN_bump_other (beq_symm_false hx')]
      simp [List.count_cons, hx']

theorem mem_keysOf_bump : ∀ (m : List (Str × Nat)) (w v : Str),
    v ∈ keysOf (bump m w) → v ∈ keysOf m ∨ v = w := by
  intro m w v
  induction m with
  | nil =>
    intro h
    simp only [bump, keysOf, List.map_cons, List.map_nil, List.mem_singleton] at h
    exact Or.inr h
  | cons p rest ih =>
    obtain ⟨k, n⟩ := p
    intro h
    by_cases hk : (k == w) = true
    · simp only [bump, hk, if_true] at h
      exact Or.inl h
    · have hk' : (k == w) = false := by simpa using hk
      simp only [bump, hk', Bool.false_eq_true, if_false, keysOf, List.map_cons,
        List.mem_cons] at h
      rcases h with h1 | h2
      · exact Or.inl (by simp [keysOf, h1])
      · rcases ih h2 with ha | hb
        · exact Or.inl (by simp only [keysOf, List.map_cons, List.mem_cons]; exact Or.inr ha)
        · exact Or.inr hb

theorem keysOf_bump_nodup : ∀ (m : List (Str × Nat)) (w : Str),
    (keysOf m).Nodup → (keysOf (bump m w)).Nodup := by
  intro m w
  induction m with
  | nil => intro _; simp [bump, keysOf]
  | cons p rest ih =>
    obtain ⟨k, n⟩ := p
    intro hnd
    simp only [keysOf, List.map_cons, List.nodup_cons] at hnd
    by_cases hk : (k == w) = true
    · simp only [bump, hk, if_true, keysOf, List.map_cons, List.nodup_cons]
      exact hnd
    · have hk' : (k == w) = false := by simpa using hk
      simp only [bump, hk', Bool.false_eq_true, if_false, keysOf, List.map_cons,
        List.nodup_cons]
      refine ⟨?_, ih hnd.2⟩
      intro hmem
      rcases mem_keysOf_bump rest w k hmem with h1 | h2
      · apply hnd.1
        simpa [keysOf] using h1
      · exact absurd h2 (by simpa using hk')

theorem keysOf_foldl_bump_nodup : ∀ (ws : List Str) (m : List (Str × Nat)),
    (keysOf m).Nodup → (keysOf (ws.foldl bump m)).Nodup := by
  intro ws
  induction ws with
  | nil => intro m h; exact h
  | cons x xs ih => intro m h; exact ih (bump m x) (keysOf_bump_nodup m x h)

theorem mem_keysOf_foldl_bump : ∀ (ws : List Str) (m : List (Str × Nat)) (v : Str),
    v ∈ keysOf (ws.foldl bump m) → v ∈ keysOf m ∨ v ∈ ws := by
  intro ws
  induction ws with
  | nil => intro m v h; exact Or.inl h
  | cons x xs ih =>
    intro m v h
    rcases ih (bump m x) v h with h1 | h2
    · rcases mem_keysOf_bump m x v h1 with ha | hb
      · exact Or.inl ha
      · exact Or.inr (by rw [hb]; exact List.mem_cons_self _ _)
    · exact Or.inr (List.mem_cons_of_mem _ h2)

theorem entry_lookupN : ∀ (m : List (Str × Nat)), (keysOf m).Nodup →
    ∀ (w : Str) (n : Nat), (w, n) ∈ m → lookupN m w = n := by
  intro m
  induction m with
  | nil => intro _ w n h; simp at h
  | cons p rest ih =>
    obtain ⟨k, c⟩ := p
    intro hnd w n h
    simp only [keysOf, List.map_cons, List.nodup_cons] at hnd
    rcases List.mem_cons.mp h with h1 | h2
    · rw [Prod.mk.injEq] at h1
      obtain ⟨hk, hn⟩ := h1
      subst hk
      subst hn
      simp [lookupN, List.find?]
    · have hkw : (k == w) = false := by
        rw [beq_eq_false_iff_ne]
        intro he
        apply hnd.1
        rw [he]
        exact List.mem_map.mpr ⟨(w, n), h2, rfl⟩
      simp only [lookupN, List.find?, hkw]
      exact ih hnd.2 w n h2

theorem word_freq_eq_goodWords_foldl (t : Str) :
    word_freq t = (goodWords t).foldl bump [] := by
  unfold word_freq goodWords
  exact foldl_skip_filter _ _ _ _

theorem word_freq_entry (t : Str) {w : Str} {n : Nat} (h : (w, n) ∈ word_freq t) :
    n = (goodWords t).count w ∧ w ∈ goodWords t := by
  rw [word_freq_eq_goodWords_foldl] at h
  have hnd : (keysOf ((goodWords t).foldl bump [])).Nodup :=
    keysOf_foldl_bump_nodup _ [] (by simp [keysOf])
  have hl := entry_lookupN _ hnd w n h
  have hl2 := lookupN_foldl_bump (goodWords t) [] w
  have hmem : w ∈ keysOf ((goodWords t).foldl bump []) :=
    List.mem_map.mpr ⟨(w, n), h, rfl⟩
  constructor
  · rw [← hl, hl2]
    simp [lookupN, List.find?]
  · rcases mem_keysOf_foldl_bump (goodWords t) [] w hmem with h1 | h2
    · simp [keysOf] at h1
    · exact h2

/-- C8.  The keyword list has length at most 20, contains only lowercase
words of three or more letters that are not stopwords, is ordered by
descending occurrence frequency in the non-stopword token stream, and ties
keep the first-encountered order of the frequency dict (stability of the
sort). -/
theorem keywords_bound_and_order (t : Str) :
    (extract_keywords t).length ≤ 20
    ∧ (∀ w ∈ extract_keywords t,
        3 ≤ w.length ∧ w.all isLowerAZ = true ∧ common_words.contains w = false)
    ∧ (extract_keywords t).Pairwise
        (fun a b => (goodWords t).count b ≤ (goodWords t).count a)
    ∧ (∀ x y : Str × Nat, [x, y].Sublist (word_freq t) → x.2 = y.2 →
        [x, y].Sublist (sorted_keywords t)) := by
  refine ⟨?_, ?_, ?_, ?_⟩
  · unfold extract_keywords
    rw [List.length_map, List.length_take]
    exact Nat.min_le_left _ _
  · intro w hw
    obtain ⟨p, hp, hpe⟩ := List.mem_map.mp hw
    have hp2 : p ∈ sorted_keywords t := (List.take_sublist _ _).subset hp
    have hp3 : p ∈ word_freq t := by
      unfold sorted_keywords at hp2
      rw [List.mem_insertionSort] at hp2
      exact hp2
    have hentry := @word_freq_entry t p.1 p.2 hp3
    have hg : p.1 ∈ goodWords t := hentry.2
    rw [hpe] at hg
    unfold goodWords at hg
    rw [List.mem_filter] at hg
    obtain ⟨hfw, hstop⟩ := hg
    unfold findWords at hfw
    rw [List.mem_filter] at hfw
    obtain ⟨_, hcond⟩ := hfw
    rw [Bool.and_eq_true] at hcond
    exact ⟨of_decide_eq_true hcond.1, hcond.2, by simpa using hstop⟩
  · have hsorted : (sorted_keywords t).Pairwise freqGe :=
      List.sorted_insertionSort freqGe (word_freq t)
    have hcnt : ∀ p ∈ sorted_keywords t, p.2 = (goodWords t).count p.1 := by
      intro p hp
      have hp3 : p ∈ word_freq t := by
        unfold sorted_keywords at hp
        rw [List.mem_insertionSort] at hp
        exact hp
      exact (@word_freq_entry t p.1 p.2 hp3).1
    have hs2 : (sorted_keywords t).Pairwise
        (fun a b => (goodWords t).count b.1 ≤ (goodWords t).count a.1) :=
      List.Pairwise.imp_of_mem (fun ha hb hr => by
        rw [← hcnt _ ha, ← hcnt _ hb]
        exact hr) hsorted
    have hs3 := List.Pairwise.sublist (List.take_sublist 20 (sorted_keywords t)) hs2
    unfold extract_keywords
    rw [List.pairwise_map]
    exact hs3
  · intro x y hsub heq
    unfold sorted_keywords
    exact List.pair_sublist_insertionSort (Nat.le_of_eq heq.symm) hsub

/-- Witness for C8 at a concrete input. -/
theorem keywords_bound_and_order_witness :
    (extract_keywords "the cat sat and the cat ran ran ran".data).length ≤ 20
    ∧ 3 ≤ ("ran".data : Str).length
    ∧ common_words.contains ("ran".data : Str) = false :=
  ⟨(keywords_bound_and_order "the cat sat and the cat ran ran ran".data).1,
   ((keywords_bound_and_order "the cat sat and the cat ran ran ran".data).2.1
      "ran".data (by decide)).1,
   ((keywords_bound_and_order "the cat sat and the cat ran ran ran".data).2.1
      "ran".data (by decide)).2.2⟩

/-! ### Concrete evaluations checking the embedding against observed behaviour -/

example : extract_skills (lowerStr "Python and Django, go there; golang".data) =
    [("languages".data, strs ["python", "go"]), ("frameworks".data, strs ["django"])] := by decide

example : extract_skills "c++ developer".data = [] := by decide

example : extract_experience "we want 5+ years of experience".data =
    "5+ years of experience".data := by decide

example : extract_experience "5-7 years of experience".data =
    "7 years of experience".data := by decide

example : extract_experience "minimum of 3 years".data = "minimum of 3 years".data := by decide

example : extract_experience "nothing here".data = notSpec := by decide

example : extract_education "programs. master degree.".data = "master degree".data := by decide

example : extract_education "great jobs".data = "great jobs".data := by decide

example : extract_education "".data = notSpec := by decide

example : identify_sections "my roles are varied".data =
    [("responsibilities".data, "s are varied".data)] := by decide

example : identify_sections "role:\n\n".data = [("responsibilities".data, ":".data)] := by decide

example : identify_sections "role\nline2\n\nline4".data =
    [("responsibilities".data, "line2".data)] := by decide

example : identify_sections "controller x".data = [] := by decide

example : extract_keywords "the cat sat and the cat ran ran ran".data =
    strs ["ran", "cat", "sat"] := by decide

example : analyze [] = { original_description := []
                         skills := []
                         experience_required := notSpec
                         education_required := notSpec
                         sections := []
                         keywords := [] } := by decide
